import Mathlib

-- Formal model of the pkg-analyzer dependency-analysis engine (src/index.ts),
-- shallowly embedded in Lean.  JavaScript strings are modelled as lists of
-- characters (JStr); JavaScript Maps and Sets are modelled as association
-- lists respecting insertion order; filesystem state is modelled by explicit
-- inductive trees; `process.exit` / uncaught exceptions are modelled with
-- `Except`.  Every definition is translated from the source file.

abbrev JStr := List Char

def unknownVersion : JStr := "unknown".toList

-- Package classification, from the PackageInfo type union
-- 'prod' | 'dev' | 'peer' | 'optional' | 'transitive'.
inductive PkgType where
  | prod
  | dev
  | peer
  | optional
  | transitive
deriving DecidableEq, Repr

structure PackageInfo where
  name : JStr
  version : JStr
  size : Nat
  type : PkgType
deriving DecidableEq, Repr

-- The four declared-dependency sets read from the project package.json
-- (getProjectDeps).  JS Sets iterate in insertion order; lists model them.
structure ProjectDeps where
  prod : List JStr
  dev : List JStr
  peer : List JStr
  optional : List JStr

-- Source: getPackageType (index.ts lines 204-210).
def getPackageType (name : JStr) (deps : ProjectDeps) : PkgType :=
  if name ∈ deps.prod then .prod
  else if name ∈ deps.dev then .dev
  else if name ∈ deps.peer then .peer
  else if name ∈ deps.optional then .optional
  else .transitive

-- Filesystem tree for getDirSize.  A directory entry is a regular file, a
-- real directory (readable or not: readdirSync throws on an unreadable one,
-- caught by the try in getDirSize), or anything else (symbolic links and
-- other special entries, for which Dirent.isFile() and Dirent.isDirectory()
-- are both false).  Since the walk never follows symbolic links, they are
-- leaves of the model and the real-directory structure is a finite tree even
-- when links form cycles on disk.
inductive FsEntry where
  | file (size : Nat) : FsEntry
  | dir (readable : Bool) (entries : List FsEntry) : FsEntry
  | link : FsEntry

-- Source: getDirSize (index.ts lines 65-85).  Calling it on a non-directory
-- or an unreadable directory makes readdirSync throw, the catch returns the
-- accumulated 0.  File entries contribute statSync(...).size, directory
-- entries recurse, all other entries are skipped.
def dirEntriesSize : List FsEntry → Nat
  | [] => 0
  | .file sz :: es => sz + dirEntriesSize es
  | .link :: es => dirEntriesSize es
  | .dir false _ :: es => dirEntriesSize es
  | .dir true cs :: es => dirEntriesSize cs + dirEntriesSize es

def getDirSize : FsEntry → Nat
  | .file _ => 0
  | .link => 0
  | .dir false _ => 0
  | .dir true es => dirEntriesSize es

-- Stable descending sort by a numeric key, modelling the JavaScript calls
-- xs.sort((a, b) => k(b) - k(a)).  Array.prototype.sort is stable, and with
-- this comparator it sorts descending by k keeping the original order of
-- equal keys; stable insertion sort has exactly that behaviour.
def insDesc {α : Type} (k : α → Nat) (x : α) : List α → List α
  | [] => [x]
  | y :: ys => if k y ≤ k x then x :: y :: ys else y :: insDesc k x ys

def jsSortDesc {α : Type} (k : α → Nat) : List α → List α
  | [] => []
  | x :: xs => insDesc k x (jsSortDesc k xs)

-- JavaScript String.prototype.indexOf(c, start): index of the first
-- occurrence of c at position ≥ start, or -1 (modelled as none).
def idxOfAux (c : Char) : List Char → Nat → Option Nat
  | [], _ => none
  | x :: xs, i => if x = c then some i else idxOfAux c xs (i + 1)

def indexOfFrom (s : JStr) (c : Char) (start : Nat) : Option Nat :=
  idxOfAux c (s.drop start) start

-- JavaScript String.prototype.lastIndexOf(c): index of the last occurrence
-- of c, or -1 (modelled as none).
def lastIdxAux (c : Char) : List Char → Nat → Option Nat → Option Nat
  | [], _, acc => acc
  | x :: xs, i, acc => lastIdxAux c xs (i + 1) (if x = c then some i else acc)

def lastIndexOfChar (s : JStr) (c : Char) : Option Nat := lastIdxAux c s 0 none

-- JavaScript String.prototype.substring(a, b): clamps both indices to the
-- string length and swaps them when a > b.
def substringJS (s : JStr) (a b : Nat) : JStr := (s.take (max a b)).drop (min a b)

-- Central-store (.pnpm) directory-entry-name parsing, as performed both in
-- the pnpm branch of getPackagesFromNodeModules (index.ts lines 265-284) and
-- in findPkgPath (lines 466-477; there a plusIndex of -1 makes indexOf
-- search from 0, but the combined `plusIndex === -1 || atIndex === -1`
-- check skips the entry exactly as here).
def parsePnpmEntry (dirName : JStr) : Option JStr :=
  if dirName.head? = some '@' then
    match indexOfFrom dirName '+' 0 with
    | none => none
    | some plusIdx =>
      match indexOfFrom dirName '@' plusIdx with
      | none => none
      | some atIdx =>
        some (substringJS dirName 0 plusIdx ++ '/' :: substringJS dirName (plusIdx + 1) atIdx)
  else
    match lastIndexOfChar dirName '@' with
    | none => none
    | some atIdx => if atIdx = 0 then none else some (substringJS dirName 0 atIdx)

-- Duplicate groups, from the DuplicateInfo interface.
structure DuplicateInfo where
  name : JStr
  versions : List (JStr × Nat)
  totalSize : Nat
deriving DecidableEq, Repr

-- One step of the byName Map building in findDuplicates (index.ts lines
-- 385-389): `byName.set(pkg.name, (byName.get(pkg.name) || []).push(pkg))`.
-- A JS Map keeps the insertion position of an existing key, so updating an
-- existing key rewrites it in place and a new key is appended at the end.
def insertGrouped (m : List (JStr × List PackageInfo)) (p : PackageInfo) :
    List (JStr × List PackageInfo) :=
  match m with
  | [] => [(p.name, [p])]
  | (n, ps) :: rest =>
    if n = p.name then (n, ps ++ [p]) :: rest else (n, ps) :: insertGrouped rest p

def groupByName (packages : List PackageInfo) : List (JStr × List PackageInfo) :=
  packages.foldl insertGrouped []

-- Iteration over the byName Map (index.ts lines 393-399): keep the names
-- held by more than one package, with their (version, size) pairs and the
-- reduce-computed total size.
def dupGroups (packages : List PackageInfo) : List DuplicateInfo :=
  (groupByName packages).filterMap (fun g =>
    if 1 < g.2.length then
      some ⟨g.1, g.2.map (fun p => (p.version, p.size)),
            g.2.foldl (fun acc p => acc + p.size) 0⟩
    else none)

-- Source: findDuplicates (index.ts lines 382-402), including the final
-- `duplicates.sort((a, b) => b.totalSize - a.totalSize)`.
def findDuplicates (packages : List PackageInfo) : List DuplicateInfo :=
  jsSortDesc (fun d => d.totalSize) (dupGroups packages)

-- Association-list lookup mirroring byName.get.
def lookupG (m : List (JStr × List PackageInfo)) (n : JStr) : List PackageInfo :=
  match m.find? (fun g => decide (g.1 = n)) with
  | some g => g.2
  | none => []

def keysG (m : List (JStr × List PackageInfo)) : List JStr := m.map (fun g => g.1)

-- Concrete sample input for evaluating the duplicate detector.
def samplePackagesC4 : List PackageInfo :=
  [⟨"a".toList, "1.0.0".toList, 1000, .transitive⟩,
   ⟨"a".toList, "2.0.0".toList, 2000, .transitive⟩,
   ⟨"b".toList, "1.0.0".toList, 500, .transitive⟩]

-- Unused-dependency records, from the UnusedDep interface
-- ('prod' | 'dev' only).
inductive UnusedType where
  | prod
  | dev
deriving DecidableEq, Repr

structure UnusedDep where
  name : JStr
  version : JStr
  size : Nat
  type : UnusedType
deriving DecidableEq, Repr

-- Source: devToolPatterns (index.ts lines 656-665).
def devToolPatterns : List JStr :=
  ["typescript".toList, "tsup".toList, "esbuild".toList, "webpack".toList,
   "rollup".toList, "vite".toList, "parcel".toList,
   "jest".toList, "vitest".toList, "mocha".toList, "chai".toList, "ava".toList,
   "eslint".toList, "prettier".toList, "stylelint".toList,
   "@types/".toList]

-- Source: the isDevTool check (index.ts lines 669-671):
-- devToolPatterns.some(pattern => depName.startsWith(pattern) || depName === pattern).
def isDevTool (depName : JStr) : Bool :=
  devToolPatterns.any (fun pat => pat.isPrefixOf depName || depName == pat)

-- Source: findUnused (index.ts lines 632-688).  The source first runs
-- scanImports(projectPath); the scan result is passed here as usedImports
-- (the scanner itself is modelled separately).  The prod loop emits a 'prod'
-- record for every production-declared name that is not imported and
-- resolves via packages.find; the dev loop additionally skips allow-listed
-- dev tools; the result is sorted descending by size.
def findUnused (usedImports : List JStr) (packages : List PackageInfo)
    (projectDeps : ProjectDeps) : List UnusedDep :=
  let prodRecs := projectDeps.prod.filterMap (fun depName =>
    if depName ∈ usedImports then none
    else (packages.find? (fun p => decide (p.name = depName))).map
      (fun pkg => ⟨depName, pkg.version, pkg.size, .prod⟩))
  let devRecs := projectDeps.dev.filterMap (fun depName =>
    if isDevTool depName then none
    else if depName ∈ usedImports then none
    else (packages.find? (fun p => decide (p.name = depName))).map
      (fun pkg => ⟨depName, pkg.version, pkg.size, .dev⟩))
  jsSortDesc (fun u => u.size) (prodRecs ++ devRecs)

def isQuoteChar (c : Char) : Bool := c = Char.ofNat 39 || c = Char.ofNat 34

-- Capture-group shape of the import/require regex in scanFile (index.ts
-- line 605): both capture groups are [^'"./][^'"]* — a first character that
-- is no quote, dot or slash, followed by non-quote characters.
def capShape (cap : JStr) : Bool :=
  match cap with
  | [] => false
  | c :: rest =>
    !(isQuoteChar c || c = '.' || c = '/') && rest.all (fun d => !(isQuoteChar d))

-- Relational over-approximation of one regex match in scanFile: any capture
-- the regex can return is a quote-delimited substring of the content whose
-- shape matches the capture group.  The import/require context before the
-- opening quote is dropped; that only enlarges the set of admissible
-- captures, so universal statements over SpecifierMatch cover every match
-- the JavaScript regex produces.
def SpecifierMatch (content cap : JStr) : Prop :=
  capShape cap = true
  ∧ ∃ pre q1 q2 post, isQuoteChar q1 = true ∧ isQuoteChar q2 = true
      ∧ content = pre ++ q1 :: (cap ++ q2 :: post)

-- JavaScript pkg.split('/'): every segment, empty segments kept.
def splitSlash : JStr → List JStr
  | [] => [[]]
  | c :: rest =>
    if c = '/' then [] :: splitSlash rest
    else
      match splitSlash rest with
      | s :: ss => (c :: s) :: ss
      | [] => [[c]]

-- Source: specifier normalization in scanFile (index.ts lines 611-617):
-- const parts = pkg.split('/'); scoped specifiers with at least two
-- segments keep parts[0]/parts[1], everything else keeps parts[0].
def normalizeSpecifier (pkg : JStr) : JStr :=
  let parts := splitSlash pkg
  if pkg.head? = some '@' ∧ 2 ≤ parts.length then
    parts.headD [] ++ '/' :: parts.getD 1 []
  else parts.headD []

-- Spec-side formulation: keep the first n path segments of a specifier.
def joinSlash : List JStr → JStr
  | [] => []
  | [s] => s
  | s :: ss => s ++ '/' :: joinSlash ss

def firstSegments (n : Nat) (s : JStr) : JStr := joinSlash ((splitSlash s).take n)

-- Dependency-tree nodes, from the TreeNode interface.
inductive TreeNode where
  | mk (name version : JStr) (size : Nat) (children : List TreeNode)

def TreeNode.name : TreeNode → JStr
  | .mk n _ _ _ => n

def TreeNode.version : TreeNode → JStr
  | .mk _ v _ _ => v

def TreeNode.size : TreeNode → Nat
  | .mk _ _ s _ => s

def TreeNode.children : TreeNode → List TreeNode
  | .mk _ _ _ cs => cs

-- All root-to-leaf name paths of a tree.
mutual
def pathsOf : TreeNode → List (List JStr)
  | .mk n _ _ [] => [[n]]
  | .mk n _ _ (c :: cs) => (pathsList (c :: cs)).map (fun p => n :: p)

def pathsList : List TreeNode → List (List JStr)
  | [] => []
  | t :: ts => pathsOf t ++ pathsList ts
end

-- The packageMap of buildTree (index.ts lines 458-461): a Map filled with
-- set(pkg.name, pkg), so a later package with the same name overwrites an
-- earlier one (last write wins).
def packageMapGet (packages : List PackageInfo) (n : JStr) : Option PackageInfo :=
  packages.reverse.find? (fun p => decide (p.name = n))

-- Source: buildNode (index.ts lines 489-515).  The recursion terminates
-- because depth strictly increases up to maxDepth; the fuel argument
-- realizes exactly that bound (fuel = maxDepth + 1 - depth at every call,
-- so fuel 0 occurs exactly when depth > maxDepth, which the source guard
-- also sends to null).  depsOf models getPackageDeps(findPkgPath(name))
-- (total: unreadable manifests give []); pathOk models findPkgPath(name)
-- being non-null; visited is the per-path set, copied for each child.
def buildNodeFuel (packages : List PackageInfo) (depsOf : JStr → List JStr)
    (pathOk : JStr → Bool) (maxDepth : Nat) :
    Nat → JStr → Nat → List JStr → Option TreeNode
  | 0, _, _, _ => none
  | fuel + 1, name, depth, visited =>
    if maxDepth < depth ∨ name ∈ visited then none
    else
      match packageMapGet packages name with
      | none => none
      | some pkg =>
        if pathOk name then
          some (.mk pkg.name pkg.version pkg.size
            (jsSortDesc TreeNode.size
              ((depsOf name).filterMap (fun dep =>
                buildNodeFuel packages depsOf pathOk maxDepth fuel dep (depth + 1)
                  (name :: visited)))))
        else none

def buildNode (packages : List PackageInfo) (depsOf : JStr → List JStr)
    (pathOk : JStr → Bool) (maxDepth : Nat) (name : JStr) (depth : Nat)
    (visited : List JStr) : Option TreeNode :=
  buildNodeFuel packages depsOf pathOk maxDepth (maxDepth + 1 - depth) name depth visited

-- Source: buildTree (index.ts lines 448-539).  With a start package, one
-- tree (or none) is built.  Without one, the project package.json is read:
-- a missing file returns [] (line 524), but the JSON.parse on line 526 is
-- not wrapped, so an unparseable manifest throws out of buildTree (modelled
-- as .error); otherwise the roots are built from the declared production and
-- development dependency names and sorted descending by size.
-- projManifest: none = file missing; some none = file present but
-- unparseable; some (some dd) = parsed, dd the prod ++ dev declared names.
def buildTree (packages : List PackageInfo) (depsOf : JStr → List JStr)
    (pathOk : JStr → Bool) (maxDepth : Nat) (start : Option JStr)
    (projManifest : Option (Option (List JStr))) : Except Unit (List TreeNode) :=
  match start with
  | some name =>
    .ok (match buildNode packages depsOf pathOk maxDepth name 0 [] with
         | some node => [node]
         | none => [])
  | none =>
    match projManifest with
    | none => .ok []
    | some none => .error ()
    | some (some directDeps) =>
      .ok (jsSortDesc TreeNode.size
        (directDeps.filterMap (fun d => buildNode packages depsOf pathOk maxDepth d 0 [])))

def rootsOf (r : Except Unit (List TreeNode)) : List TreeNode :=
  match r with
  | .ok ts => ts
  | .error _ => []

-- Concrete diamond graph: a depends on b and c, both depend on d.
def diamondPackages : List PackageInfo :=
  [⟨"a".toList, "1".toList, 4, .prod⟩, ⟨"b".toList, "1".toList, 3, .transitive⟩,
   ⟨"c".toList, "1".toList, 2, .transitive⟩, ⟨"d".toList, "1".toList, 1, .transitive⟩]

def diamondDeps (n : JStr) : List JStr :=
  if n = "a".toList then ["b".toList, "c".toList]
  else if n = "b".toList then ["d".toList]
  else if n = "c".toList then ["d".toList]
  else []

-- Concrete two-cycle: a and b declare each other.
def cyclePackages : List PackageInfo :=
  [⟨"a".toList, "1".toList, 2, .prod⟩, ⟨"b".toList, "1".toList, 1, .transitive⟩]

def cycleDeps (n : JStr) : List JStr :=
  if n = "a".toList then ["b".toList]
  else if n = "b".toList then ["a".toList]
  else []

-- Deduplication key of the flat/nested walk (index.ts lines 320, 335):
-- the string `name@version`.  It coincides with the (name, version) pair
-- except that a name containing '@' can collide with another pair.
def keyOf (p : PackageInfo) : JStr := p.name ++ '@' :: p.version

-- seen.has(key) / seen.set(key, info): the Map in insertion order.
def tryInsert (seen : List PackageInfo) (info : PackageInfo) : List PackageInfo :=
  if seen.any (fun q => decide (keyOf q = keyOf info)) then seen else seen ++ [info]

def tryInsertOpt (seen : List PackageInfo) (info : Option PackageInfo) : List PackageInfo :=
  match info with
  | none => seen
  | some i => tryInsert seen i

def foldIns (seen : List PackageInfo) (l : List PackageInfo) : List PackageInfo :=
  l.foldl tryInsert seen

-- Source: getPackageInfo (index.ts lines 359-377).  manifest: none when
-- package.json is missing or JSON.parse throws (the function returns null);
-- some v? when it parses, v? being the version field (absent gives
-- "unknown"); size is the getDirSize result attached to the directory node.
def getPackageInfo (pkgName : JStr) (manifest : Option (Option JStr)) (size : Nat)
    (deps : ProjectDeps) : Option PackageInfo :=
  manifest.map (fun v? =>
    ⟨pkgName, v?.getD unknownVersion, size, getPackageType pkgName deps⟩)

-- node_modules directory entries for the flat/nested walk: a non-directory
-- entry (skipped), or a directory with its attached getPackageInfo data and
-- child entries.  readable records whether readdirSync on this directory
-- succeeds; the walk calls readdirSync on a directory only when it is used
-- as a node_modules directory (index.ts line 301) or as an @scope directory
-- (line 310), and those calls are NOT wrapped, so an unreadable directory
-- there throws out of the whole walk.  The throw is modelled by the
-- scanThrows* predicates below; the scan* functions compute the value of a
-- completed walk and are only exposed by getPackagesFromNodeModules when the
-- throw predicate is false, so on every filesystem where their value is
-- used, readability never matters to them.
inductive Ent where
  | file (name : JStr) : Ent
  | dir (name : JStr) (readable : Bool) (manifest : Option (Option JStr)) (size : Nat)
      (children : List Ent) : Ent

-- Structural fuel bound for the walk over an entry forest (at least the
-- length of any call chain of the recursion below).
mutual
def entFuel : Ent → Nat
  | .file _ => 1
  | .dir _ _ _ _ cs => 1 + entsFuel cs

def entsFuel : List Ent → Nat
  | [] => 1
  | e :: es => 1 + entFuel e + entsFuel es
end

def entName : Ent → JStr
  | .file n => n
  | .dir n _ _ _ _ => n

def entIsDir : Ent → Bool
  | .file _ => false
  | .dir _ _ _ _ _ => true

def entReadable : Ent → Bool
  | .file _ => true
  | .dir _ r _ _ _ => r

def entChildren : Ent → List Ent
  | .file _ => []
  | .dir _ _ _ _ cs => cs

-- path.join(pkgPath, 'node_modules') resolved against the child entries:
-- the entries of the child directory named node_modules, if any.
def findNested (children : List Ent) : Option (List Ent) :=
  match children.find? (fun e => entIsDir e && entName e == "node_modules".toList) with
  | some (.dir _ _ _ _ cs) => some cs
  | _ => none

-- Source: scanNodeModules (index.ts lines 298-347), the npm/yarn branch.
-- scanNMOpt is the function entry (`if (!fs.existsSync(nmPath) || depth >
-- 10) return`); scanEnts is the entry loop; scanEnt handles one entry
-- (skip non-directories and dot-names; a name starting with '@' is a scope
-- directory whose sub-directories are packages; otherwise the directory is
-- a package: getPackageInfo, first-occurrence insert into seen, then the
-- nested node_modules at depth+1).  The source recursion terminates because
-- each recursive call descends into strictly smaller directory subtrees;
-- the fuel argument realizes that bound structurally and every theorem
-- below is proved for all fuel values.
mutual
def scanEnts (deps : ProjectDeps) : Nat → List Ent → Nat → List PackageInfo → List PackageInfo
  | 0, _, _, seen => seen
  | _ + 1, [], _, seen => seen
  | fuel + 1, e :: es, depth, seen =>
    scanEnts deps fuel es depth (scanEnt deps fuel e depth seen)

def scanEnt (deps : ProjectDeps) : Nat → Ent → Nat → List PackageInfo → List PackageInfo
  | 0, _, _, seen => seen
  | _ + 1, .file _, _, seen => seen
  | fuel + 1, .dir name _ manifest size children, depth, seen =>
    if name.head? = some '.' then seen
    else if name.head? = some '@' then
      scanScoped deps fuel name children depth seen
    else
      scanNMOpt deps fuel (findNested children) (depth + 1)
        (tryInsertOpt seen (getPackageInfo name manifest size deps))

def scanScoped (deps : ProjectDeps) : Nat → JStr → List Ent → Nat → List PackageInfo → List PackageInfo
  | 0, _, _, _, seen => seen
  | _ + 1, _, [], _, seen => seen
  | fuel + 1, scope, .file _ :: cs, depth, seen => scanScoped deps fuel scope cs depth seen
  | fuel + 1, scope, .dir sub _ manifest size children :: cs, depth, seen =>
    scanScoped deps fuel scope cs depth
      (scanNMOpt deps fuel (findNested children) (depth + 1)
        (tryInsertOpt seen (getPackageInfo (scope ++ '/' :: sub) manifest size deps)))

def scanNMOpt (deps : ProjectDeps) : Nat → Option (List Ent) → Nat → List PackageInfo → List PackageInfo
  | 0, _, _, seen => seen
  | _ + 1, none, _, seen => seen
  | fuel + 1, some es, depth, seen =>
    if 10 < depth then seen else scanEnts deps fuel es depth seen
end

-- The same walk as a plain occurrence list (every getPackageInfo result in
-- visit order, without the seen-map): the specification that the scan
-- deduplicates against.
mutual
def walkEnts (deps : ProjectDeps) : Nat → List Ent → Nat → List PackageInfo
  | 0, _, _ => []
  | _ + 1, [], _ => []
  | fuel + 1, e :: es, depth => walkEnt deps fuel e depth ++ walkEnts deps fuel es depth

def walkEnt (deps : ProjectDeps) : Nat → Ent → Nat → List PackageInfo
  | 0, _, _ => []
  | _ + 1, .file _, _ => []
  | fuel + 1, .dir name _ manifest size children, depth =>
    if name.head? = some '.' then []
    else if name.head? = some '@' then walkScoped deps fuel name children depth
    else
      (getPackageInfo name manifest size deps).toList
        ++ walkNMOpt deps fuel (findNested children) (depth + 1)

def walkScoped (deps : ProjectDeps) : Nat → JStr → List Ent → Nat → List PackageInfo
  | 0, _, _, _ => []
  | _ + 1, _, [], _ => []
  | fuel + 1, scope, .file _ :: cs, depth => walkScoped deps fuel scope cs depth
  | fuel + 1, scope, .dir sub _ manifest size children :: cs, depth =>
    (getPackageInfo (scope ++ '/' :: sub) manifest size deps).toList
      ++ walkNMOpt deps fuel (findNested children) (depth + 1)
      ++ walkScoped deps fuel scope cs depth

def walkNMOpt (deps : ProjectDeps) : Nat → Option (List Ent) → Nat → List PackageInfo
  | 0, _, _ => []
  | _ + 1, none, _ => []
  | fuel + 1, some es, depth => if 10 < depth then [] else walkEnts deps fuel es depth
end

-- The directory entry named node_modules itself (carrying its readable
-- flag), as resolved by path.join(pkgPath, 'node_modules').
def findNestedDir (children : List Ent) : Option Ent :=
  children.find? (fun e => entIsDir e && entName e == "node_modules".toList)

-- Whether the walk of scanNodeModules throws: the readdirSync calls on a
-- node_modules directory (index.ts line 301) and on an @scope directory
-- (line 310) are not wrapped in any try/catch, so hitting an unreadable
-- directory in either position aborts the entire run.  This mirrors the
-- traversal of scanEnts/scanEnt/scanScoped/scanNMOpt step for step (same
-- guards, same fuel discipline); a run throws exactly when some readdirSync
-- it performs hits an unreadable directory.
mutual
def scanThrowsEnts : Nat → List Ent → Nat → Bool
  | 0, _, _ => false
  | _ + 1, [], _ => false
  | fuel + 1, e :: es, depth => scanThrowsEnt fuel e depth || scanThrowsEnts fuel es depth

def scanThrowsEnt : Nat → Ent → Nat → Bool
  | 0, _, _ => false
  | _ + 1, .file _, _ => false
  | fuel + 1, .dir name readable _ _ children, depth =>
    if name.head? = some '.' then false
    else if name.head? = some '@' then
      !readable || scanThrowsScoped fuel children depth
    else scanThrowsNM fuel (findNestedDir children) (depth + 1)

def scanThrowsScoped : Nat → List Ent → Nat → Bool
  | 0, _, _ => false
  | _ + 1, [], _ => false
  | fuel + 1, .file _ :: cs, depth => scanThrowsScoped fuel cs depth
  | fuel + 1, .dir _ _ _ _ children :: cs, depth =>
    scanThrowsNM fuel (findNestedDir children) (depth + 1)
      || scanThrowsScoped fuel cs depth

def scanThrowsNM : Nat → Option Ent → Nat → Bool
  | 0, _, _ => false
  | _ + 1, none, _ => false
  | fuel + 1, some e, depth =>
    if 10 < depth then false
    else !entReadable e || scanThrowsEnts fuel (entChildren e) depth
end

-- One entry of the .pnpm store directory.  lookup models
-- fs.existsSync(pkgPath) together with getPackageInfo at
-- .pnpm/<dirName>/node_modules/<name>: none when the path does not exist or
-- the manifest is missing/unparseable (both are skipped identically by the
-- source), some (version-field, size) otherwise.
structure PnpmEnt where
  dirName : JStr
  isDir : Bool
  lookup : JStr → Option (Option JStr × Nat)

-- Source: the pnpm branch loop of getPackagesFromNodeModules (index.ts
-- lines 255-292).  Note: unlike the flat branch, nothing is deduplicated
-- here; every resolving entry is pushed.
def getPackagesPnpm (entries : List PnpmEnt) (deps : ProjectDeps) : List PackageInfo :=
  entries.filterMap (fun e =>
    if e.isDir then
      (parsePnpmEntry e.dirName).bind (fun name =>
        (e.lookup name).bind (fun vs => getPackageInfo name (some vs.1) vs.2 deps))
    else none)

inductive PackageManager where
  | pnpm
  | yarn
  | npm
deriving DecidableEq, Repr

-- Filesystem facts consumed by detection and discovery.
structure ProjectFS where
  nmExists : Bool
  hasPnpmLock : Bool
  hasYarnLock : Bool
  hasNpmLock : Bool
  hasDotPnpm : Bool
  hasYarnIntegrity : Bool
  nmReadable : Bool
  dotPnpmReadable : Bool
  pnpmEntries : List PnpmEnt
  flatEntries : List Ent

-- Source: detectPackageManager (index.ts lines 217-229).
def detectPackageManager (fs : ProjectFS) : PackageManager :=
  if fs.hasPnpmLock then .pnpm
  else if fs.hasYarnLock then .yarn
  else if fs.hasNpmLock then .npm
  else if fs.hasDotPnpm then .pnpm
  else if fs.hasYarnIntegrity then .yarn
  else .npm

-- Source: getPackagesFromNodeModules (index.ts lines 234-354).  Every way
-- the source terminates the run is modelled as .error: the two
-- spinner.fail + process.exit(1) sites (missing node_modules, lines
-- 237-240; pnpm detected but .pnpm missing, lines 250-253), the unwrapped
-- readdirSync on the .pnpm store (line 255, throws when .pnpm is
-- unreadable), the unwrapped readdirSync on node_modules itself (line 301,
-- throws when it is unreadable), and any unwrapped readdirSync deeper in
-- the flat walk (lines 301 and 310, captured by scanThrowsEnts).  The value
-- of the completed flat walk is computed by scanNMOpt with a fuel bound
-- dominating the recursion depth.
def getPackagesFromNodeModules (fs : ProjectFS) (deps : ProjectDeps) :
    Except Unit (List PackageInfo) :=
  if fs.nmExists = false then .error ()
  else
    match detectPackageManager fs with
    | .pnpm =>
      if fs.hasDotPnpm = false then .error ()
      else if fs.dotPnpmReadable = false then .error ()
      else .ok (getPackagesPnpm fs.pnpmEntries deps)
    | _ =>
      if fs.nmReadable = false then .error ()
      else if scanThrowsEnts (entsFuel fs.flatEntries + 1) fs.flatEntries 0 then .error ()
      else .ok (scanNMOpt deps (entsFuel fs.flatEntries + 1) (some fs.flatEntries) 0 [])

-- findPkgPath in pnpm mode (index.ts lines 464-481) resolves a name by
-- scanning the .pnpm entry names with parsePnpmEntry.
def findPkgPathPnpmOk (storeEntries : List JStr) (name : JStr) : Bool :=
  storeEntries.any (fun e => parsePnpmEntry e == some name)

-- buildTree as actually run (index.ts lines 448-539) including the one
-- operation buildTree performs that can throw: in pnpm mode findPkgPath
-- calls fs.readdirSync(pnpmPath) (line 465) without any try/catch, so when
-- the .pnpm store directory exists but is unreadable, the first findPkgPath
-- call aborts the run.  findPkgPath is called by buildNode exactly after
-- the packageMap lookup succeeds, and the root guard (depth 0 <= maxDepth,
-- empty visited) always passes, so the first call — and hence the throw —
-- happens iff some considered root name resolves in the packageMap; the
-- exception fires before any deeper recursion.  When no throw occurs,
-- findPkgPath succeeds iff some store entry parses to the name, which is
-- the pathOk predicate handed to buildTree.
def buildTreeRun (isPnpm storeReadable : Bool) (storeEntries : List JStr)
    (flatHas : JStr → Bool) (packages : List PackageInfo) (depsOf : JStr → List JStr)
    (maxDepth : Nat) (start : Option JStr) (projManifest : Option (Option (List JStr))) :
    Except Unit (List TreeNode) :=
  let pathOk := fun name =>
    if isPnpm then findPkgPathPnpmOk storeEntries name else flatHas name
  match start with
  | some name =>
    if isPnpm && !storeReadable && (packageMapGet packages name).isSome then .error ()
    else buildTree packages depsOf pathOk maxDepth (some name) projManifest
  | none =>
    match projManifest with
    | none => .ok []
    | some none => .error ()
    | some (some dd) =>
      if isPnpm && !storeReadable && dd.any (fun d => (packageMapGet packages d).isSome)
      then .error ()
      else buildTree packages depsOf pathOk maxDepth none projManifest

-- Concrete .pnpm store with two peer-variant entries of the same package:
-- both parse to the name a and both manifests carry version 1.0.0.
def pnpmDupEntries : List PnpmEnt :=
  [⟨"a@1".toList, true,
    fun n => if n = "a".toList then some (some "1.0.0".toList, 10) else none⟩,
   ⟨"a@2".toList, true,
    fun n => if n = "a".toList then some (some "1.0.0".toList, 20) else none⟩]

def emptyDeps : ProjectDeps := ⟨[], [], [], []⟩

theorem insDesc_perm {α : Type} (k : α → Nat) (x : α) (l : List α) :
    (insDesc k x l).Perm (x :: l) := by
  induction l with
  | nil => simp [insDesc]
  | cons y ys ih =>
    simp only [insDesc]
    split
    · exact List.Perm.refl _
    · exact (ih.cons y).trans (List.Perm.swap x y ys)

theorem jsSortDesc_perm {α : Type} (k : α → Nat) (l : List α) :
    (jsSortDesc k l).Perm l := by
  induction l with
  | nil => simp [jsSortDesc]
  | cons x xs ih =>
    exact (insDesc_perm k x (jsSortDesc k xs)).trans (ih.cons x)

theorem mem_jsSortDesc {α : Type} (k : α → Nat) (l : List α) (a : α) :
    a ∈ jsSortDesc k l ↔ a ∈ l :=
  (jsSortDesc_perm k l).mem_iff

theorem insDesc_sorted {α : Type} (k : α → Nat) (x : α) (l : List α)
    (h : l.Pairwise (fun a b => k b ≤ k a)) :
    (insDesc k x l).Pairwise (fun a b => k b ≤ k a) := by
  induction l with
  | nil => simp [insDesc]
  | cons y ys ih =>
    rcases List.pairwise_cons.mp h with ⟨hy, hys⟩
    simp only [insDesc]
    split
    · rename_i hle
      refine List.pairwise_cons.mpr ⟨?_, h⟩
      intro z hz
      rcases List.mem_cons.mp hz with hz | hz
      · exact hz ▸ hle
      · exact le_trans (hy z hz) hle
    · rename_i hlt
      refine List.pairwise_cons.mpr ⟨?_, ih hys⟩
      intro z hz
      rcases List.mem_cons.mp ((insDesc_perm k x ys).mem_iff.mp hz) with hz | hz
      · exact hz ▸ le_of_not_le hlt
      · exact hy z hz

theorem jsSortDesc_sorted {α : Type} (k : α → Nat) (l : List α) :
    (jsSortDesc k l).Pairwise (fun a b => k b ≤ k a) := by
  induction l with
  | nil => simp [jsSortDesc]
  | cons x xs ih => exact insDesc_sorted k x _ ih

theorem insDesc_filter_of_eq {α : Type} (k : α → Nat) (t : Nat) (x : α) (l : List α)
    (hx : k x = t) :
    (insDesc k x l).filter (fun a => k a == t) = x :: l.filter (fun a => k a == t) := by
  induction l with
  | nil => simp [insDesc, hx]
  | cons y ys ih =>
    simp only [insDesc]
    split
    · simp [hx]
    · rename_i hlt
      have hyt : (k y == t) = false := by
        simp only [beq_eq_false_iff_ne, ne_eq]
        intro hyt
        exact hlt (by omega)
      simp [List.filter, hyt, ih]

theorem insDesc_filter_of_ne {α : Type} (k : α → Nat) (t : Nat) (x : α) (l : List α)
    (hx : ¬ k x = t) :
    (insDesc k x l).filter (fun a => k a == t) = l.filter (fun a => k a == t) := by
  induction l with
  | nil => simp [insDesc, hx]
  | cons y ys ih =>
    have hxf : (k x == t) = false := by simpa using hx
    simp only [insDesc]
    split
    · simp [List.filter, hxf]
    · simp only [List.filter]
      cases hyt : (k y == t) <;> simp [ih]

theorem jsSortDesc_filter {α : Type} (k : α → Nat) (t : Nat) (l : List α) :
    (jsSortDesc k l).filter (fun a => k a == t) = l.filter (fun a => k a == t) := by
  induction l with
  | nil => simp [jsSortDesc]
  | cons x xs ih =>
    simp only [jsSortDesc]
    by_cases hx : k x = t
    · rw [insDesc_filter_of_eq k t x _ hx, ih]
      simp [List.filter, hx]
    · rw [insDesc_filter_of_ne k t x _ hx, ih]
      have : (k x == t) = false := by simpa using hx
      simp [List.filter, this]

theorem dirEntriesSize_append (a b : List FsEntry) :
    dirEntriesSize (a ++ b) = dirEntriesSize a + dirEntriesSize b := by
  induction a with
  | nil => simp [dirEntriesSize]
  | cons e es ih =>
    cases e with
    | file sz => simp [dirEntriesSize, ih]; omega
    | link => simp [dirEntriesSize, ih]
    | dir r cs =>
      cases r
      · simp [dirEntriesSize, ih]
      · simp [dirEntriesSize, ih]
        omega

/-- C10: the directory-size accumulator is total and non-negative: an
unreadable directory contributes zero, and entries that are neither regular
files nor real directories (symbolic links in particular) are neither counted
nor recursed into, so removing such an entry leaves the computed size
unchanged.  Termination on link-cycles is witnessed by the model itself:
since the walk never follows links, `getDirSize` is structural recursion on
the finite tree of real directories. -/
theorem c10_getDirSize_total :
    (∀ es, getDirSize (.dir false es) = 0)
    ∧ (∀ (r : Bool) (es1 es2 : List FsEntry),
        getDirSize (.dir r (es1 ++ .link :: es2)) = getDirSize (.dir r (es1 ++ es2)))
    ∧ (∀ e, 0 ≤ getDirSize e) := by
  refine ⟨fun es => rfl, ?_, fun e => Nat.zero_le _⟩
  intro r es1 es2
  cases r
  · rfl
  · simp [getDirSize, dirEntriesSize_append, dirEntriesSize]

/-- C6: classification is a pure function of the name and the four declared
sets, returning exactly one classification by the priority chain production >
development > peer > optional > transitive; it returns production iff the
name is production-declared, and a name declared both production and peer is
classified production. -/
theorem c6_getPackageType_priority (name : JStr) (deps : ProjectDeps) :
    (getPackageType name deps = .prod ↔ name ∈ deps.prod)
    ∧ (getPackageType name deps = .dev ↔ name ∉ deps.prod ∧ name ∈ deps.dev)
    ∧ (getPackageType name deps = .peer ↔
        name ∉ deps.prod ∧ name ∉ deps.dev ∧ name ∈ deps.peer)
    ∧ (getPackageType name deps = .optional ↔
        name ∉ deps.prod ∧ name ∉ deps.dev ∧ name ∉ deps.peer ∧ name ∈ deps.optional)
    ∧ (getPackageType name deps = .transitive ↔
        name ∉ deps.prod ∧ name ∉ deps.dev ∧ name ∉ deps.peer ∧ name ∉ deps.optional)
    ∧ (name ∈ deps.prod → name ∈ deps.peer → getPackageType name deps = .prod) := by
  by_cases h1 : name ∈ deps.prod <;>
    by_cases h2 : name ∈ deps.dev <;>
      by_cases h3 : name ∈ deps.peer <;>
        by_cases h4 : name ∈ deps.optional <;>
          simp [getPackageType, h1, h2, h3, h4]

/-- C6 witness: concrete evaluation of the classifier through the theorem. -/
theorem c6_getPackageType_priority_witness :
    getPackageType "a".toList
      ⟨["a".toList], [], ["a".toList], []⟩ = .prod :=
  (c6_getPackageType_priority "a".toList ⟨["a".toList], [], ["a".toList], []⟩).2.2.2.2.2
    (by decide) (by decide)

theorem idxOfAux_of_not_mem {c : Char} {xs : List Char} (i : Nat) (h : c ∉ xs) :
    idxOfAux c xs i = none := by
  induction xs generalizing i with
  | nil => rfl
  | cons x xs ih =>
    have hx : ¬ x = c := fun he => h (he ▸ List.mem_cons_self x xs)
    simp only [idxOfAux, if_neg hx]
    exact ih (i + 1) (fun hm => h (List.mem_cons_of_mem x hm))

theorem idxOfAux_append {c : Char} {xs : List Char} (ys : List Char) (i : Nat) (h : c ∉ xs) :
    idxOfAux c (xs ++ ys) i = idxOfAux c ys (i + xs.length) := by
  induction xs generalizing i with
  | nil => simp
  | cons x xs ih =>
    have hx : ¬ x = c := fun he => h (he ▸ List.mem_cons_self x xs)
    simp only [List.cons_append, List.append_eq, idxOfAux, if_neg hx]
    rw [ih (i + 1) (fun hm => h (List.mem_cons_of_mem x hm))]
    congr 1
    simp only [List.length_cons]
    omega

theorem idxOfAux_le {c : Char} {xs : List Char} {i j : Nat}
    (h : idxOfAux c xs i = some j) : i ≤ j := by
  induction xs generalizing i with
  | nil => simp [idxOfAux] at h
  | cons x xs ih =>
    by_cases hx : x = c
    · simp [idxOfAux, hx] at h
      omega
    · simp only [idxOfAux, if_neg hx] at h
      have := ih h
      omega

theorem lastIdxAux_append {c : Char} (xs ys : List Char) (i : Nat) (acc : Option Nat) :
    lastIdxAux c (xs ++ ys) i acc
      = lastIdxAux c ys (i + xs.length) (lastIdxAux c xs i acc) := by
  induction xs generalizing i acc with
  | nil => simp [lastIdxAux]
  | cons x xs ih =>
    simp only [List.cons_append, List.append_eq, lastIdxAux]
    rw [ih]
    congr 1
    simp only [List.length_cons]
    omega

theorem lastIdxAux_of_not_mem {c : Char} {ys : List Char} (i : Nat) (acc : Option Nat)
    (h : c ∉ ys) : lastIdxAux c ys i acc = acc := by
  induction ys generalizing i acc with
  | nil => rfl
  | cons y ys ih =>
    have hy : ¬ y = c := fun he => h (he ▸ List.mem_cons_self y ys)
    simp only [lastIdxAux, if_neg hy]
    exact ih (i + 1) acc (fun hm => h (List.mem_cons_of_mem y hm))

theorem parsePnpmEntry_scoped (scope pkg rest : JStr)
    (h1 : '+' ∉ scope) (h2 : '@' ∉ pkg) :
    parsePnpmEntry (('@' :: scope) ++ ('+' :: pkg) ++ ('@' :: rest))
      = some (('@' :: scope) ++ '/' :: pkg) := by
  have hA : '+' ∉ ('@' :: scope) := by
    intro hm
    rcases List.mem_cons.mp hm with h | h
    · exact absurd h (by decide)
    · exact h1 h
  have hB : '@' ∉ ('+' :: pkg) := by
    intro hm
    rcases List.mem_cons.mp hm with h | h
    · exact absurd h (by decide)
    · exact h2 h
  have hhead : (('@' :: scope) ++ ('+' :: pkg) ++ ('@' :: rest)).head? = some '@' := by
    simp
  have hplus : indexOfFrom (('@' :: scope) ++ ('+' :: pkg) ++ ('@' :: rest)) '+' 0
      = some (scope.length + 1) := by
    unfold indexOfFrom
    rw [List.drop_zero, List.append_assoc, idxOfAux_append _ 0 hA]
    simp [idxOfAux]
  have hat : indexOfFrom (('@' :: scope) ++ ('+' :: pkg) ++ ('@' :: rest)) '@' (scope.length + 1)
      = some (scope.length + 1 + (pkg.length + 1)) := by
    unfold indexOfFrom
    rw [List.append_assoc, List.drop_left' (by simp), idxOfAux_append _ _ hB]
    simp [idxOfAux]
  have hsub1 : substringJS (('@' :: scope) ++ ('+' :: pkg) ++ ('@' :: rest)) 0 (scope.length + 1)
      = '@' :: scope := by
    unfold substringJS
    rw [Nat.max_eq_right (Nat.zero_le _), Nat.min_eq_left (Nat.zero_le _), List.drop_zero,
      List.append_assoc, List.take_left' (by simp)]
  have hsub2 : substringJS (('@' :: scope) ++ ('+' :: pkg) ++ ('@' :: rest))
      (scope.length + 1 + 1) (scope.length + 1 + (pkg.length + 1)) = pkg := by
    unfold substringJS
    rw [Nat.max_eq_right (by omega), Nat.min_eq_left (by omega),
      List.take_left' (by simp; omega)]
    rw [List.append_cons ('@' :: scope) '+' pkg]
    rw [List.drop_left' (by simp)]
  unfold parsePnpmEntry
  rw [if_pos hhead]
  simp only [hplus, hat, hsub1, hsub2]

theorem parsePnpmEntry_unscoped (nm rest : JStr)
    (h0 : nm ≠ []) (h1 : nm.head? ≠ some '@') (h2 : '@' ∉ rest) :
    parsePnpmEntry (nm ++ '@' :: rest) = some nm := by
  have hhead : (nm ++ '@' :: rest).head? ≠ some '@' := by
    cases nm with
    | nil => exact absurd rfl h0
    | cons a as => simpa using h1
  have hlast : lastIndexOfChar (nm ++ '@' :: rest) '@' = some nm.length := by
    unfold lastIndexOfChar
    rw [lastIdxAux_append]
    simp only [lastIdxAux, if_pos rfl]
    rw [lastIdxAux_of_not_mem _ _ h2]
    simp
  have hsub : substringJS (nm ++ '@' :: rest) 0 nm.length = nm := by
    unfold substringJS
    rw [Nat.max_eq_right (Nat.zero_le _), Nat.min_eq_left (Nat.zero_le _), List.drop_zero,
      List.take_left]
  have hne : ¬ nm.length = 0 := by
    simpa [List.length_eq_zero] using h0
  unfold parsePnpmEntry
  rw [if_neg hhead]
  simp only [hlast]
  rw [if_neg hne, hsub]

theorem parsePnpmEntry_no_plus (s : JStr) (hh : s.head? = some '@') (h : '+' ∉ s) :
    parsePnpmEntry s = none := by
  have hidx : indexOfFrom s '+' 0 = none := by
    unfold indexOfFrom
    rw [List.drop_zero]
    exact idxOfAux_of_not_mem 0 h
  unfold parsePnpmEntry
  rw [if_pos hh]
  simp only [hidx]

theorem parsePnpmEntry_no_at_after (s : JStr) (hh : s.head? = some '@') (h : '@' ∉ s.tail) :
    parsePnpmEntry s = none := by
  cases s with
  | nil => simp at hh
  | cons a as =>
    have ha : a = '@' := by simpa using hh
    subst ha
    have htail : '@' ∉ as := by simpa using h
    cases hplus : indexOfFrom ('@' :: as) '+' 0 with
    | none =>
      unfold parsePnpmEntry
      rw [if_pos hh]
      simp only [hplus]
    | some p =>
      have hp1 : 1 ≤ p := by
        unfold indexOfFrom at hplus
        rw [List.drop_zero] at hplus
        simp only [idxOfAux, if_neg (by decide : ¬ ('@' = '+'))] at hplus
        exact idxOfAux_le hplus
      have hat : indexOfFrom ('@' :: as) '@' p = none := by
        unfold indexOfFrom
        have hdrop : ('@' :: as).drop p = as.drop (p - 1) := by
          cases p with
          | zero => omega
          | succ q => simp
        rw [hdrop]
        exact idxOfAux_of_not_mem _ (fun hm => htail (List.mem_of_mem_drop hm))
      unfold parsePnpmEntry
      rw [if_pos hh]
      simp only [hplus, hat]

theorem parsePnpmEntry_no_at (s : JStr) (hh : s.head? ≠ some '@') (h : '@' ∉ s) :
    parsePnpmEntry s = none := by
  have hlast : lastIndexOfChar s '@' = none := by
    unfold lastIndexOfChar
    exact lastIdxAux_of_not_mem 0 none h
  unfold parsePnpmEntry
  rw [if_neg hh]
  simp only [hlast]

/-- C5: central-store entry-name parsing.  For a name starting with '@' the
parser takes the first '+', then the next '@' at or after it, and returns
scope/name (the '+' replaced by '/'); otherwise it splits at the last '@';
entries whose required '+' or '@' is absent are skipped (none), as is a
non-scoped entry whose only '@' is at position 0 (vacuous here, since such a
string starts with '@' and is handled by the scoped branch). -/
theorem c5_pnpm_entry_parsing :
    (∀ scope pkg rest : JStr, '+' ∉ scope → '@' ∉ pkg →
      parsePnpmEntry (('@' :: scope) ++ ('+' :: pkg) ++ ('@' :: rest))
        = some (('@' :: scope) ++ '/' :: pkg))
    ∧ (∀ nm rest : JStr, nm ≠ [] → nm.head? ≠ some '@' → '@' ∉ rest →
      parsePnpmEntry (nm ++ '@' :: rest) = some nm)
    ∧ (∀ s : JStr, s.head? = some '@' → '+' ∉ s → parsePnpmEntry s = none)
    ∧ (∀ s : JStr, s.head? = some '@' → '@' ∉ s.tail → parsePnpmEntry s = none)
    ∧ (∀ s : JStr, s.head? ≠ some '@' → '@' ∉ s → parsePnpmEntry s = none) :=
  ⟨parsePnpmEntry_scoped, parsePnpmEntry_unscoped, parsePnpmEntry_no_plus,
   parsePnpmEntry_no_at_after, parsePnpmEntry_no_at⟩

/-- C5 witness: a scoped and an unscoped store entry parsed through the
theorem at concrete inputs. -/
theorem c5_pnpm_entry_parsing_witness :
    parsePnpmEntry (('@' :: "babel".toList) ++ ('+' :: "core".toList) ++ ('@' :: "7.26.0".toList))
        = some (('@' :: "babel".toList) ++ '/' :: "core".toList)
    ∧ parsePnpmEntry ("lodash".toList ++ '@' :: "4.17.21".toList) = some "lodash".toList :=
  ⟨c5_pnpm_entry_parsing.1 _ _ _ (by decide) (by decide),
   c5_pnpm_entry_parsing.2.1 _ _ (by decide) (by decide) (by decide)⟩

theorem keysG_insertGrouped (m : List (JStr × List PackageInfo)) (p : PackageInfo) :
    keysG (insertGrouped m p)
      = if p.name ∈ keysG m then keysG m else keysG m ++ [p.name] := by
  induction m with
  | nil => simp [insertGrouped, keysG]
  | cons e rest ih =>
    obtain ⟨k, ps⟩ := e
    by_cases hk : k = p.name
    · subst hk
      simp [insertGrouped, keysG]
    · simp only [insertGrouped, if_neg hk, keysG, List.map_cons] at *
      by_cases hmem : p.name ∈ keysG rest
      · simp only [keysG] at hmem
        simp [hmem, ih, List.mem_cons, Ne.symm hk]
      · simp only [keysG] at hmem
        simp [hmem, ih, List.mem_cons, Ne.symm hk]

theorem keysG_insertGrouped_nodup (m : List (JStr × List PackageInfo)) (p : PackageInfo)
    (h : (keysG m).Nodup) : (keysG (insertGrouped m p)).Nodup := by
  rw [keysG_insertGrouped]
  by_cases hmem : p.name ∈ keysG m
  · simpa [hmem] using h
  · simp only [if_neg hmem]
    simp [List.nodup_append, h, hmem]

theorem keysG_groupByName_nodup (packages : List PackageInfo) :
    (keysG (groupByName packages)).Nodup := by
  unfold groupByName
  have hgen : ∀ (ps : List PackageInfo) (acc : List (JStr × List PackageInfo)),
      (keysG acc).Nodup → (keysG (ps.foldl insertGrouped acc)).Nodup := by
    intro ps
    induction ps with
    | nil => intro acc h; exact h
    | cons p ps ih =>
      intro acc h
      exact ih (insertGrouped acc p) (keysG_insertGrouped_nodup acc p h)
  exact hgen packages [] (by simp [keysG])

theorem lookupG_cons (k : JStr) (ps : List PackageInfo)
    (rest : List (JStr × List PackageInfo)) (n : JStr) :
    lookupG ((k, ps) :: rest) n = if k = n then ps else lookupG rest n := by
  by_cases hn : k = n
  · simp [lookupG, List.find?, hn]
  · simp [lookupG, List.find?, hn]

theorem lookupG_insertGrouped (m : List (JStr × List PackageInfo)) (p : PackageInfo)
    (n : JStr) :
    lookupG (insertGrouped m p) n
      = if p.name = n then lookupG m n ++ [p] else lookupG m n := by
  induction m with
  | nil =>
    by_cases hn : p.name = n
    · simp [insertGrouped, lookupG, List.find?, hn]
    · simp [insertGrouped, lookupG, List.find?, hn]
  | cons e rest ih =>
    obtain ⟨k, ps⟩ := e
    by_cases hk : k = p.name
    · rw [show insertGrouped ((k, ps) :: rest) p = (k, ps ++ [p]) :: rest from by
        simp [insertGrouped, hk]]
      rw [lookupG_cons, lookupG_cons]
      by_cases hn : k = n
      · have hpn : p.name = n := hk.symm.trans hn
        simp [hn, hpn]
      · have hpn : ¬ p.name = n := fun h2 => hn (hk.trans h2)
        simp [hn, hpn]
    · rw [show insertGrouped ((k, ps) :: rest) p = (k, ps) :: insertGrouped rest p from by
        simp [insertGrouped, hk]]
      rw [lookupG_cons, lookupG_cons, ih]
      by_cases hn : k = n
      · have hpn : ¬ p.name = n := fun h2 => hk (hn.trans h2.symm)
        simp [hn, hpn]
      · simp [hn]

theorem lookupG_groupByName (packages : List PackageInfo) (n : JStr) :
    lookupG (groupByName packages) n
      = packages.filter (fun p => decide (p.name = n)) := by
  unfold groupByName
  have hgen : ∀ (ps : List PackageInfo) (acc : List (JStr × List PackageInfo)),
      lookupG (ps.foldl insertGrouped acc) n
        = lookupG acc n ++ ps.filter (fun p => decide (p.name = n)) := by
    intro ps
    induction ps with
    | nil => intro acc; simp
    | cons p ps ih =>
      intro acc
      rw [List.foldl_cons, ih (insertGrouped acc p), lookupG_insertGrouped]
      by_cases hn : p.name = n
      · simp [hn, List.filter]
      · have hnf : (decide (p.name = n)) = false := by simpa using hn
        simp [hn, List.filter, hnf]
  rw [hgen packages []]
  simp [lookupG, List.find?]

theorem lookupG_of_mem_nodupKeys (m : List (JStr × List PackageInfo))
    (k : JStr) (qs : List PackageInfo)
    (hnd : (keysG m).Nodup) (h : (k, qs) ∈ m) : lookupG m k = qs := by
  induction m with
  | nil => simp at h
  | cons e rest ih =>
    obtain ⟨k2, qs2⟩ := e
    simp only [keysG, List.map_cons, List.nodup_cons] at hnd
    rcases List.mem_cons.mp h with he | he
    · simp only [Prod.mk.injEq] at he
      obtain ⟨rfl, rfl⟩ := he
      rw [lookupG_cons]
      simp
    · have hk2 : ¬ k2 = k := by
        intro he2
        subst he2
        exact hnd.1 (List.mem_map.mpr ⟨(k2, qs), he, rfl⟩)
      rw [lookupG_cons, if_neg hk2]
      exact ih hnd.2 he

theorem mem_groupByName_eq_filter (packages : List PackageInfo)
    (k : JStr) (qs : List PackageInfo) (h : (k, qs) ∈ groupByName packages) :
    qs = packages.filter (fun p => decide (p.name = k)) := by
  have hl := lookupG_of_mem_nodupKeys (groupByName packages) k qs
    (keysG_groupByName_nodup packages) h
  rw [← hl, lookupG_groupByName]

theorem foldl_size_sum (ps : List PackageInfo) (a : Nat) :
    ps.foldl (fun acc p => acc + p.size) a = a + (ps.map (fun p => p.size)).sum := by
  induction ps generalizing a with
  | nil => simp
  | cons p ps ih => simp [ih]; omega

theorem dupGroups_names_sublist (packages : List PackageInfo) :
    ((dupGroups packages).map (fun g => g.name)).Sublist (keysG (groupByName packages)) := by
  unfold dupGroups keysG
  generalize groupByName packages = m
  induction m with
  | nil => simp
  | cons e rest ih =>
    by_cases he : 1 < e.2.length
    · simpa [List.filterMap_cons, he] using ih.cons₂ e.1
    · simpa [List.filterMap_cons, he] using ih.cons e.1

theorem mem_dupGroups_iff (packages : List PackageInfo) (g : DuplicateInfo) :
    g ∈ dupGroups packages
      ↔ ∃ k qs, (k, qs) ∈ groupByName packages ∧ 1 < qs.length
          ∧ g = ⟨k, qs.map (fun p => (p.version, p.size)),
                 qs.foldl (fun acc p => acc + p.size) 0⟩ := by
  simp only [dupGroups, List.mem_filterMap]
  constructor
  · rintro ⟨⟨k, qs⟩, hmem2, hf⟩
    by_cases hlen : 1 < qs.length
    · refine ⟨k, qs, hmem2, hlen, ?_⟩
      simp only [if_pos hlen, Option.some.injEq] at hf
      exact hf.symm
    · simp [hlen] at hf
  · rintro ⟨k, qs, hmem2, hlen, rfl⟩
    exact ⟨(k, qs), hmem2, by simp [hlen]⟩

/-- C4: the duplicate detector returns exactly one group per name shared by
at least two list members (grouping by name, not by (name, version)); each
group's totalSize is the sum of its members' sizes and its versions list is
the (version, size) projection of exactly the members carrying that name, in
input order; the output is sorted descending by totalSize, and groups with
equal totalSize keep their grouping (first-occurrence) order, as produced by
the stable JavaScript sort. -/
theorem c4_findDuplicates_spec (packages : List PackageInfo) :
    ((findDuplicates packages).map (fun g => g.name)).Nodup
    ∧ (∀ n : JStr, (∃ g ∈ findDuplicates packages, g.name = n)
        ↔ 2 ≤ packages.countP (fun p => decide (p.name = n)))
    ∧ (∀ g ∈ findDuplicates packages,
        2 ≤ g.versions.length
        ∧ g.totalSize = (g.versions.map Prod.snd).sum
        ∧ g.versions = (packages.filter (fun p => decide (p.name = g.name))).map
            (fun p => (p.version, p.size)))
    ∧ (findDuplicates packages).Pairwise (fun a b => b.totalSize ≤ a.totalSize)
    ∧ (∀ t : Nat, (findDuplicates packages).filter (fun g => g.totalSize == t)
        = (dupGroups packages).filter (fun g => g.totalSize == t)) := by
  have hperm : (findDuplicates packages).Perm (dupGroups packages) :=
    jsSortDesc_perm _ _
  refine ⟨?_, ?_, ?_, jsSortDesc_sorted _ _, fun t => jsSortDesc_filter _ t _⟩
  · have h1 : ((dupGroups packages).map (fun g => g.name)).Nodup :=
      (keysG_groupByName_nodup packages).sublist (dupGroups_names_sublist packages)
    exact ((hperm.map (fun g => g.name)).nodup_iff).mpr h1
  · intro n
    rw [List.countP_eq_length_filter]
    constructor
    · rintro ⟨g, hg, rfl⟩
      obtain ⟨k, qs, hk, hlen, rfl⟩ := (mem_dupGroups_iff packages _).mp (hperm.subset hg)
      have hqs := mem_groupByName_eq_filter packages k qs hk
      simpa [← hqs] using hlen
    · intro h2
      cases hfind : (groupByName packages).find? (fun g => decide (g.1 = n)) with
      | none =>
        have : lookupG (groupByName packages) n = [] := by
          simp [lookupG, hfind]
        rw [lookupG_groupByName] at this
        rw [this] at h2
        simp at h2
      | some e =>
        have hemem : e ∈ groupByName packages := List.mem_of_find?_eq_some hfind
        have hen : e.1 = n := by
          have := List.find?_some hfind
          simpa using this
        have hlk : lookupG (groupByName packages) n = e.2 := by
          simp [lookupG, hfind]
        rw [lookupG_groupByName] at hlk
        have hlen : 1 < e.2.length := by
          rw [← hlk]
          omega
        refine ⟨⟨e.1, e.2.map (fun p => (p.version, p.size)),
                 e.2.foldl (fun acc p => acc + p.size) 0⟩, ?_, hen⟩
        rw [hperm.mem_iff, mem_dupGroups_iff]
        exact ⟨e.1, e.2, by simpa using hemem, hlen, rfl⟩
  · intro g hg
    obtain ⟨k, qs, hk, hlen, rfl⟩ := (mem_dupGroups_iff packages _).mp (hperm.subset hg)
    have hqs := mem_groupByName_eq_filter packages k qs hk
    refine ⟨by simpa using hlen, ?_, ?_⟩
    · rw [foldl_size_sum, List.map_map]
      have hcomp : (Prod.snd ∘ fun p : PackageInfo => (p.version, p.size))
          = fun p => p.size := rfl
      rw [hcomp]
      simp
    · show List.map (fun p => (p.version, p.size)) qs
        = List.map (fun p => (p.version, p.size))
            (List.filter (fun p => decide (p.name = k)) packages)
      rw [← hqs]

/-- C4 witness: duplicate detection evaluated at a concrete three-package
input through the theorem. -/
theorem c4_findDuplicates_spec_witness :
    ((∃ g ∈ findDuplicates samplePackagesC4, g.name = "a".toList)
      ↔ 2 ≤ samplePackagesC4.countP (fun p => decide (p.name = "a".toList)))
    ∧ (2 ≤ (DuplicateInfo.mk "a".toList
          [("1.0.0".toList, 1000), ("2.0.0".toList, 2000)] 3000).versions.length) :=
  ⟨(c4_findDuplicates_spec samplePackagesC4).2.1 "a".toList,
   ((c4_findDuplicates_spec samplePackagesC4).2.2.1
      ⟨"a".toList, [("1.0.0".toList, 1000), ("2.0.0".toList, 2000)], 3000⟩
      (by decide)).1⟩

/-- C7 counterexample: with eslint declared both as a production and as a
development dependency, never imported and resolvable, the report does
contain a record named eslint (with type prod), although eslint is a
development-declared dependency matching the allow-list. -/
theorem c7_counterexample :
    "eslint".toList ∈ (ProjectDeps.mk ["eslint".toList] ["eslint".toList] [] []).dev
    ∧ isDevTool "eslint".toList = true
    ∧ ∃ r ∈ findUnused [] [⟨"eslint".toList, "9.0.0".toList, 100, .prod⟩]
        (ProjectDeps.mk ["eslint".toList] ["eslint".toList] [] []),
        r.name = "eslint".toList := by
  decide

/-- C7 amended: an allow-listed development-declared name never yields a
dev-typed record (and dev-typed records only arise from the development set,
prod-typed records only from the production set, so names only in the peer
or optional sets are never evaluated); a record for an allow-listed dev name
can still appear with type prod when that name is also production-declared. -/
theorem c7_unused_devtool_exclusion (usedImports : List JStr)
    (packages : List PackageInfo) (projectDeps : ProjectDeps) :
    ∀ r ∈ findUnused usedImports packages projectDeps,
      r.name ∉ usedImports
      ∧ (r.type = .dev → isDevTool r.name = false ∧ r.name ∈ projectDeps.dev)
      ∧ (r.type = .prod → r.name ∈ projectDeps.prod) := by
  intro r hr
  have hr2 := (mem_jsSortDesc _ _ _).mp hr
  rcases List.mem_append.mp hr2 with h | h
  · obtain ⟨depName, hdep, hf⟩ := List.mem_filterMap.mp h
    by_cases himp : depName ∈ usedImports
    · simp [himp] at hf
    · cases hfind : packages.find? (fun p => decide (p.name = depName)) with
      | none => simp [himp, hfind] at hf
      | some pkg =>
        simp only [if_neg himp, hfind, Option.map_some', Option.some.injEq] at hf
        subst hf
        exact ⟨himp, fun hty => by simp at hty, fun _ => hdep⟩
  · obtain ⟨depName, hdep, hf⟩ := List.mem_filterMap.mp h
    by_cases htool : isDevTool depName = true
    · simp [htool] at hf
    · by_cases himp : depName ∈ usedImports
      · simp [himp, htool] at hf
      · cases hfind : packages.find? (fun p => decide (p.name = depName)) with
        | none => simp [himp, htool, hfind] at hf
        | some pkg =>
          simp only [htool, if_neg himp, hfind, Bool.false_eq_true, if_false,
            Option.map_some', Option.some.injEq] at hf
          subst hf
          exact ⟨himp, fun _ => ⟨by simpa using htool, hdep⟩, fun hty => by simp at hty⟩

/-- C7 witness: the amended theorem applied at a concrete run containing a
prod-typed record for the dual-declared allow-listed name. -/
theorem c7_unused_devtool_exclusion_witness :
    (UnusedDep.mk "eslint".toList "9.0.0".toList 100 .prod).name ∉ ([] : List JStr)
    ∧ ((UnusedDep.mk "eslint".toList "9.0.0".toList 100 .prod).type = .dev →
        isDevTool (UnusedDep.mk "eslint".toList "9.0.0".toList 100 .prod).name = false
        ∧ (UnusedDep.mk "eslint".toList "9.0.0".toList 100 .prod).name
            ∈ (ProjectDeps.mk ["eslint".toList] ["eslint".toList] [] []).dev)
    ∧ ((UnusedDep.mk "eslint".toList "9.0.0".toList 100 .prod).type = .prod →
        (UnusedDep.mk "eslint".toList "9.0.0".toList 100 .prod).name
            ∈ (ProjectDeps.mk ["eslint".toList] ["eslint".toList] [] []).prod) :=
  c7_unused_devtool_exclusion []
    [⟨"eslint".toList, "9.0.0".toList, 100, .prod⟩]
    (ProjectDeps.mk ["eslint".toList] ["eslint".toList] [] [])
    ⟨"eslint".toList, "9.0.0".toList, 100, .prod⟩ (by decide)

/-- C9: a name declared in both the production and the development sets that
is unimported, not an allow-listed dev tool, and resolves to a discovered
package produces two records in the unused report, one typed prod and one
typed dev. -/
theorem c9_dual_declared_two_records (usedImports : List JStr)
    (packages : List PackageInfo) (projectDeps : ProjectDeps)
    (name : JStr) (pkg : PackageInfo)
    (hprod : name ∈ projectDeps.prod) (hdev : name ∈ projectDeps.dev)
    (himp : name ∉ usedImports) (htool : isDevTool name = false)
    (hfind : packages.find? (fun p => decide (p.name = name)) = some pkg) :
    (⟨name, pkg.version, pkg.size, .prod⟩ : UnusedDep)
        ∈ findUnused usedImports packages projectDeps
    ∧ (⟨name, pkg.version, pkg.size, .dev⟩ : UnusedDep)
        ∈ findUnused usedImports packages projectDeps := by
  constructor
  · rw [findUnused, mem_jsSortDesc]
    apply List.mem_append_left
    exact List.mem_filterMap.mpr ⟨name, hprod, by simp [himp, hfind]⟩
  · rw [findUnused, mem_jsSortDesc]
    apply List.mem_append_right
    exact List.mem_filterMap.mpr ⟨name, hdev, by simp [himp, htool, hfind]⟩

/-- C9 witness: both records observed on a concrete dual-declared input
through the theorem. -/
theorem c9_dual_declared_two_records_witness :
    (⟨"foo".toList, "1.0.0".toList, 7, .prod⟩ : UnusedDep)
        ∈ findUnused [] [⟨"foo".toList, "1.0.0".toList, 7, .prod⟩]
            (ProjectDeps.mk ["foo".toList] ["foo".toList] [] [])
    ∧ (⟨"foo".toList, "1.0.0".toList, 7, .dev⟩ : UnusedDep)
        ∈ findUnused [] [⟨"foo".toList, "1.0.0".toList, 7, .prod⟩]
            (ProjectDeps.mk ["foo".toList] ["foo".toList] [] []) :=
  c9_dual_declared_two_records [] [⟨"foo".toList, "1.0.0".toList, 7, .prod⟩]
    (ProjectDeps.mk ["foo".toList] ["foo".toList] [] [])
    "foo".toList ⟨"foo".toList, "1.0.0".toList, 7, .prod⟩
    (by decide) (by decide) (by decide) (by decide) (by decide)

theorem splitSlash_ne_nil (s : JStr) : splitSlash s ≠ [] := by
  cases s with
  | nil => simp [splitSlash]
  | cons c rest =>
    by_cases hc : c = '/'
    · simp [splitSlash, hc]
    · simp only [splitSlash, if_neg hc]
      cases splitSlash rest with
      | nil => simp
      | cons s ss => simp

/-- C8: every capture of the import/require regex starts with a character
that is neither '.' nor '/', and the recorded specifier is normalized to its
first two path segments when it is scoped (starts with '@' and has at least
one '/'), and to its first path segment otherwise. -/
theorem c8_scanner_spec :
    (∀ content cap : JStr, SpecifierMatch content cap →
      cap.head? ≠ some '.' ∧ cap.head? ≠ some '/')
    ∧ (∀ s : JStr, normalizeSpecifier s =
        if s.head? = some '@' ∧ 2 ≤ (splitSlash s).length
        then firstSegments 2 s else firstSegments 1 s) := by
  constructor
  · rintro content cap ⟨hshape, _⟩
    cases cap with
    | nil => simp [capShape] at hshape
    | cons c rest =>
      simp only [capShape, Bool.and_eq_true, Bool.not_eq_true', Bool.or_eq_false_iff] at hshape
      obtain ⟨⟨⟨_, hdot⟩, hslash⟩, _⟩ := hshape
      constructor
      · simp only [List.head?_cons, ne_eq, Option.some.injEq]
        intro he
        rw [he] at hdot
        simp at hdot
      · simp only [List.head?_cons, ne_eq, Option.some.injEq]
        intro he
        rw [he] at hslash
        simp at hslash
  · intro s
    unfold normalizeSpecifier firstSegments
    cases hsp : splitSlash s with
    | nil => exact absurd hsp (splitSlash_ne_nil s)
    | cons p0 ps =>
      by_cases hc : s.head? = some '@' ∧ 2 ≤ (p0 :: ps).length
      · rw [if_pos hc, if_pos hc]
        rcases hc with ⟨_, hlen⟩
        cases ps with
        | nil => simp at hlen
        | cons p1 ps2 => simp [joinSlash]
      · rw [if_neg hc, if_neg hc]
        simp [joinSlash]

/-- C8 witness: the theorem applied to a concrete matched content and to the
concrete specifier lodash/fp (whose normalization keeps only lodash). -/
theorem c8_scanner_spec_witness :
    ((("lodash/fp".toList : JStr).head? ≠ some '.')
      ∧ (("lodash/fp".toList : JStr).head? ≠ some '/'))
    ∧ normalizeSpecifier "lodash/fp".toList =
        (if ("lodash/fp".toList : JStr).head? = some '@'
            ∧ 2 ≤ (splitSlash "lodash/fp".toList).length
         then firstSegments 2 "lodash/fp".toList
         else firstSegments 1 "lodash/fp".toList) :=
  ⟨c8_scanner_spec.1
      ("import x from ".toList ++ Char.ofNat 39 :: ("lodash/fp".toList ++ [Char.ofNat 39]))
      "lodash/fp".toList
      ⟨by decide, "import x from ".toList, Char.ofNat 39, Char.ofNat 39, [],
        by decide, by decide, rfl⟩,
   c8_scanner_spec.2 "lodash/fp".toList⟩

theorem mem_pathsList {ts : List TreeNode} {q : List JStr} :
    q ∈ pathsList ts ↔ ∃ t ∈ ts, q ∈ pathsOf t := by
  induction ts with
  | nil => simp [pathsList]
  | cons t ts ih => simp [pathsList, List.mem_append, ih]

theorem mem_pathsOf {t : TreeNode} {p : List JStr} (hp : p ∈ pathsOf t) :
    (p = [t.name] ∧ t.children = [])
    ∨ ∃ q c, c ∈ t.children ∧ q ∈ pathsOf c ∧ p = t.name :: q := by
  obtain ⟨n, v, s, cs⟩ := t
  cases cs with
  | nil =>
    simp only [pathsOf, List.mem_singleton] at hp
    exact Or.inl ⟨by simpa [TreeNode.name] using hp, rfl⟩
  | cons c cs =>
    simp only [pathsOf, List.mem_map] at hp
    obtain ⟨q, hq, rfl⟩ := hp
    obtain ⟨t2, ht2, hq2⟩ := mem_pathsList.mp hq
    exact Or.inr ⟨q, t2, ht2, hq2, rfl⟩

theorem buildNodeFuel_paths (packages : List PackageInfo) (depsOf : JStr → List JStr)
    (pathOk : JStr → Bool) (maxDepth : Nat) :
    ∀ (fuel : Nat) (name : JStr) (depth : Nat) (visited : List JStr) (t : TreeNode),
      buildNodeFuel packages depsOf pathOk maxDepth fuel name depth visited = some t →
      ∀ p ∈ pathsOf t, p.length ≤ fuel ∧ p.Nodup ∧ ∀ x ∈ p, x ∉ visited := by
  intro fuel
  induction fuel with
  | zero =>
    intro name depth visited t h
    simp [buildNodeFuel] at h
  | succ fuel ih =>
    intro name depth visited t h
    simp only [buildNodeFuel] at h
    by_cases hguard : maxDepth < depth ∨ name ∈ visited
    · rw [if_pos hguard] at h
      simp at h
    · rw [if_neg hguard] at h
      have hnv : name ∉ visited := fun hx => hguard (Or.inr hx)
      cases hpm : packageMapGet packages name with
      | none =>
        rw [hpm] at h
        simp at h
      | some pkg =>
        rw [hpm] at h
        cases hpath : pathOk name with
        | false =>
          rw [hpath] at h
          simp at h
        | true =>
          rw [hpath] at h
          simp only [if_true, Option.some.injEq] at h
          subst h
          have hname : pkg.name = name := by
            unfold packageMapGet at hpm
            have := List.find?_some hpm
            simpa using this
          intro p hp
          rcases mem_pathsOf hp with ⟨hpl, _⟩ | ⟨q, c, hc, hq, hpl⟩
          · subst hpl
            refine ⟨by simp, by simp, ?_⟩
            intro x hx
            simp only [TreeNode.name, List.mem_singleton] at hx
            rw [hx, hname]
            exact hnv
          · simp only [TreeNode.children] at hc
            rw [mem_jsSortDesc] at hc
            obtain ⟨dep, _, hbuild⟩ := List.mem_filterMap.mp hc
            obtain ⟨hlen, hnd, hvis⟩ := ih dep (depth + 1) (name :: visited) c hbuild q hq
            subst hpl
            simp only [TreeNode.name]
            refine ⟨by simp; omega, ?_, ?_⟩
            · rw [List.nodup_cons]
              refine ⟨?_, hnd⟩
              intro hqmem
              rw [hname] at hqmem
              exact hvis name hqmem (List.mem_cons_self name visited)
            · intro x hx
              rcases List.mem_cons.mp hx with hx | hx
              · rw [hx, hname]
                exact hnv
              · exact fun hv => hvis x hx (List.mem_cons_of_mem name hv)

/-- C3: for every input, including cyclic declared-dependency graphs, the
tree builder returns a finite forest in which no root-to-leaf path has more
than maxDepth+1 nodes and no package name repeats on any root-to-leaf path;
at a cutoff (depth exceeded or name already on the path) the node itself is
omitted; and because the visited set is a per-path copy, a diamond
dependency legitimately appears in both sibling branches, while the concrete
two-cycle a-b is cut after its first recurrence. -/
theorem c3_buildTree_invariants :
    (∀ packages depsOf pathOk maxDepth start projManifest trees,
      buildTree packages depsOf pathOk maxDepth start projManifest = .ok trees →
      ∀ t ∈ trees, ∀ p ∈ pathsOf t, p.length ≤ maxDepth + 1 ∧ p.Nodup)
    ∧ (∀ packages depsOf pathOk maxDepth name depth visited,
        maxDepth < depth ∨ name ∈ visited →
        buildNode packages depsOf pathOk maxDepth name depth visited = none)
    ∧ pathsList (rootsOf (buildTree diamondPackages diamondDeps (fun _ => true) 3
          (some "a".toList) none))
        = [["a".toList, "b".toList, "d".toList], ["a".toList, "c".toList, "d".toList]]
    ∧ pathsList (rootsOf (buildTree cyclePackages cycleDeps (fun _ => true) 5
          (some "a".toList) none))
        = [["a".toList, "b".toList]] := by
  refine ⟨?_, ?_, by decide, by decide⟩
  · intro packages depsOf pathOk maxDepth start projManifest trees hok t ht p hp
    have hnode : ∀ name, buildNode packages depsOf pathOk maxDepth name 0 [] = some t →
        p.length ≤ maxDepth + 1 ∧ p.Nodup := by
      intro name hb
      unfold buildNode at hb
      obtain ⟨hlen, hnd, _⟩ :=
        buildNodeFuel_paths packages depsOf pathOk maxDepth (maxDepth + 1 - 0) name 0 [] t hb p hp
      exact ⟨le_trans hlen (by omega), hnd⟩
    cases start with
    | some name =>
      simp only [buildTree] at hok
      cases hb : buildNode packages depsOf pathOk maxDepth name 0 [] with
      | none =>
        rw [hb] at hok
        simp only [Except.ok.injEq] at hok
        subst hok
        simp at ht
      | some node =>
        rw [hb] at hok
        simp only [Except.ok.injEq] at hok
        subst hok
        rcases List.mem_singleton.mp ht with rfl
        exact hnode name hb
    | none =>
      cases projManifest with
      | none =>
        simp only [buildTree, Except.ok.injEq] at hok
        subst hok
        simp at ht
      | some mf =>
        cases mf with
        | none => simp [buildTree] at hok
        | some directDeps =>
          simp only [buildTree, Except.ok.injEq] at hok
          subst hok
          rw [mem_jsSortDesc] at ht
          obtain ⟨d, _, hb⟩ := List.mem_filterMap.mp ht
          exact hnode d hb
  · intro packages depsOf pathOk maxDepth name depth visited hguard
    unfold buildNode
    cases hf : maxDepth + 1 - depth with
    | zero => rfl
    | succ k =>
      simp only [buildNodeFuel]
      rw [if_pos hguard]

/-- C3 witness: the cutoff part of the theorem applied at a concrete call
whose depth exceeds maxDepth. -/
theorem c3_buildTree_invariants_witness :
    buildNode [] (fun _ => []) (fun _ => true) 3 "a".toList 5 [] = none :=
  c3_buildTree_invariants.2.1 [] (fun _ => []) (fun _ => true) 3 "a".toList 5 []
    (Or.inl (by decide))

theorem foldIns_append (seen : List PackageInfo) (a b : List PackageInfo) :
    foldIns seen (a ++ b) = foldIns (foldIns seen a) b :=
  List.foldl_append _ _ _ _

theorem foldIns_toList (seen : List PackageInfo) (o : Option PackageInfo) :
    foldIns seen o.toList = tryInsertOpt seen o := by
  cases o <;> rfl

theorem scan_eq_foldIns (deps : ProjectDeps) :
    ∀ fuel : Nat,
      (∀ es depth seen,
        scanEnts deps fuel es depth seen = foldIns seen (walkEnts deps fuel es depth))
      ∧ (∀ e depth seen,
        scanEnt deps fuel e depth seen = foldIns seen (walkEnt deps fuel e depth))
      ∧ (∀ scope cs depth seen,
        scanScoped deps fuel scope cs depth seen
          = foldIns seen (walkScoped deps fuel scope cs depth))
      ∧ (∀ o depth seen,
        scanNMOpt deps fuel o depth seen = foldIns seen (walkNMOpt deps fuel o depth)) := by
  intro fuel
  induction fuel with
  | zero =>
    refine ⟨?_, ?_, ?_, ?_⟩ <;> intros <;> simp [scanEnts, scanEnt, scanScoped, scanNMOpt,
      walkEnts, walkEnt, walkScoped, walkNMOpt, foldIns]
  | succ fuel ih =>
    obtain ⟨ihEnts, ihEnt, ihScoped, ihNM⟩ := ih
    refine ⟨?_, ?_, ?_, ?_⟩
    · intro es depth seen
      cases es with
      | nil => simp [scanEnts, walkEnts, foldIns]
      | cons e es =>
        simp only [scanEnts, walkEnts]
        rw [foldIns_append, ihEnts, ihEnt]
    · intro e depth seen
      cases e with
      | file n => simp [scanEnt, walkEnt, foldIns]
      | dir name readable manifest size children =>
        simp only [scanEnt, walkEnt]
        by_cases hdot : name.head? = some '.'
        · rw [if_pos hdot, if_pos hdot]
          simp [foldIns]
        · rw [if_neg hdot, if_neg hdot]
          by_cases hat : name.head? = some '@'
          · rw [if_pos hat, if_pos hat]
            exact ihScoped name children depth seen
          · rw [if_neg hat, if_neg hat]
            rw [foldIns_append, foldIns_toList, ihNM]
    · intro scope cs depth seen
      cases cs with
      | nil => simp [scanScoped, walkScoped, foldIns]
      | cons c cs =>
        cases c with
        | file n =>
          simp only [scanScoped, walkScoped]
          exact ihScoped scope cs depth seen
        | dir sub readable manifest size children =>
          simp only [scanScoped, walkScoped]
          rw [foldIns_append, foldIns_append, foldIns_toList, ihNM, ihScoped]
    · intro o depth seen
      cases o with
      | none => simp [scanNMOpt, walkNMOpt, foldIns]
      | some es =>
        simp only [scanNMOpt, walkNMOpt]
        by_cases hd : 10 < depth
        · rw [if_pos hd, if_pos hd]
          simp [foldIns]
        · rw [if_neg hd, if_neg hd]
          exact ihEnts es depth seen

theorem tryInsert_find? (seen : List PackageInfo) (x : PackageInfo) (k : JStr) :
    (tryInsert seen x).find? (fun p => decide (keyOf p = k))
      = (seen.find? (fun p => decide (keyOf p = k))).or
          ([x].find? (fun p => decide (keyOf p = k))) := by
  unfold tryInsert
  by_cases hany : seen.any (fun q => decide (keyOf q = keyOf x)) = true
  · rw [if_pos hany]
    by_cases hk : keyOf x = k
    · have hex : ∃ q ∈ seen, (fun p => decide (keyOf p = k)) q = true := by
        obtain ⟨q, hq, hq2⟩ := List.any_eq_true.mp hany
        refine ⟨q, hq, ?_⟩
        simp only [decide_eq_true_eq] at hq2 ⊢
        rw [hq2, hk]
      have hsome := List.find?_isSome.mpr hex
      obtain ⟨a, ha⟩ := Option.isSome_iff_exists.mp hsome
      rw [ha]
      rfl
    · have hxn : ([x].find? (fun p => decide (keyOf p = k))) = none := by
        simp [List.find?, hk]
      rw [hxn, Option.or_none]
  · rw [if_neg hany, List.find?_append]

theorem foldIns_find? (l : List PackageInfo) (seen : List PackageInfo) (k : JStr) :
    (foldIns seen l).find? (fun p => decide (keyOf p = k))
      = (seen.find? (fun p => decide (keyOf p = k))).or
          (l.find? (fun p => decide (keyOf p = k))) := by
  induction l generalizing seen with
  | nil => simp [foldIns]
  | cons x l ih =>
    show (foldIns (tryInsert seen x) l).find? _ = _
    rw [ih, tryInsert_find?, Option.or_assoc]
    congr 1
    by_cases hk : keyOf x = k
    · simp [List.find?, hk]
    · simp [List.find?, hk]

theorem tryInsert_keys_nodup (seen : List PackageInfo) (x : PackageInfo)
    (h : (seen.map keyOf).Nodup) : ((tryInsert seen x).map keyOf).Nodup := by
  unfold tryInsert
  by_cases hany : seen.any (fun q => decide (keyOf q = keyOf x)) = true
  · rw [if_pos hany]
    exact h
  · rw [if_neg hany, List.map_append, List.nodup_append]
    refine ⟨h, by simp, ?_⟩
    intro a ha hb
    simp only [List.map_cons, List.map_nil, List.mem_singleton] at hb
    subst hb
    obtain ⟨q, hq, hqeq⟩ := List.mem_map.mp ha
    exact hany (List.any_eq_true.mpr ⟨q, hq, by simp [hqeq]⟩)

theorem foldIns_keys_nodup (l : List PackageInfo) (seen : List PackageInfo)
    (h : (seen.map keyOf).Nodup) : ((foldIns seen l).map keyOf).Nodup := by
  induction l generalizing seen with
  | nil => exact h
  | cons x l ih =>
    show ((foldIns (tryInsert seen x) l).map keyOf).Nodup
    exact ih (tryInsert seen x) (tryInsert_keys_nodup seen x h)

/-- C1 counterexample: a central-store (pnpm) run whose returned package list
contains two distinct members with the same (name, version) pair — the pnpm
branch pushes every resolving store entry without any deduplication. -/
theorem c1_counterexample :
    ∃ p ∈ getPackagesPnpm pnpmDupEntries emptyDeps,
      ∃ q ∈ getPackagesPnpm pnpmDupEntries emptyDeps,
        p ≠ q ∧ p.name = q.name ∧ p.version = q.version := by
  decide

/-- C1 amended: in the flat/nested (npm/yarn) walk the seen-map keyed by the
string name@version guarantees that no two returned members share a
(name, version) pair and that the member kept for a key is the first
occurrence of that key in walk order (hence its size is the one computed for
that first occurrence); the central-store (pnpm) branch applies no
deduplication and can return two members with the same (name, version). -/
theorem c1_dedup_amended :
    (∀ (deps : ProjectDeps) (fuel : Nat) (es : List Ent) (depth : Nat),
      ((scanNMOpt deps fuel (some es) depth []).map keyOf).Nodup
      ∧ (scanNMOpt deps fuel (some es) depth []).Pairwise
          (fun p q => ¬(p.name = q.name ∧ p.version = q.version))
      ∧ (∀ k : JStr,
          (scanNMOpt deps fuel (some es) depth []).find? (fun p => decide (keyOf p = k))
            = (walkNMOpt deps fuel (some es) depth).find? (fun p => decide (keyOf p = k))))
    ∧ (getPackagesPnpm pnpmDupEntries emptyDeps).map (fun p => (p.name, p.version))
        = [("a".toList, "1.0.0".toList), ("a".toList, "1.0.0".toList)] := by
  constructor
  · intro deps fuel es depth
    have hscan := (scan_eq_foldIns deps fuel).2.2.2 (some es) depth []
    have hnodup : ((scanNMOpt deps fuel (some es) depth []).map keyOf).Nodup := by
      rw [hscan]
      exact foldIns_keys_nodup _ [] (by simp)
    refine ⟨hnodup, ?_, ?_⟩
    · have hpw := List.pairwise_map.mp hnodup
      exact hpw.imp (fun hne hpq => hne (by simp [keyOf, hpq.1, hpq.2]))
    · intro k
      rw [hscan, foldIns_find?]
      simp
  · decide

/-- C1 witness: the flat-walk part of the theorem applied at a concrete
entry list holding two directories with the same name and version. -/
theorem c1_dedup_amended_witness :
    ((scanNMOpt emptyDeps 9
        (some [Ent.dir "x".toList true (some (some "1".toList)) 5 [],
               Ent.dir "x".toList true (some (some "1".toList)) 6 []]) 0 []).map keyOf).Nodup :=
  (c1_dedup_amended.1 emptyDeps 9
    [Ent.dir "x".toList true (some (some "1".toList)) 5 [],
     Ent.dir "x".toList true (some (some "1".toList)) 6 []] 0).1

/-- C2 counterexample: four terminating conditions beyond the missing
installed-package root: a project detected as pnpm whose node_modules lacks
a .pnpm store exits; a single unreadable @scope directory inside an
otherwise fine node_modules throws out of the flat walk (unwrapped
readdirSync, index.ts line 310); an existing but unreadable .pnpm store
throws (line 255); an unparseable project manifest during tree building
throws (line 526); and an unreadable .pnpm store aborts a start-package
tree build through findPkgPath (line 465). -/
theorem c2_counterexample :
    getPackagesFromNodeModules
        ⟨true, true, false, false, false, false, true, true, [], []⟩ emptyDeps = .error ()
    ∧ getPackagesFromNodeModules
        ⟨true, false, false, true, false, false, true, true, [],
         [Ent.dir ['@', 's'] false none 0 []]⟩ emptyDeps = .error ()
    ∧ getPackagesFromNodeModules
        ⟨true, true, false, false, true, false, true, false, [], []⟩ emptyDeps = .error ()
    ∧ buildTreeRun false true [] (fun _ => false) [] (fun _ => []) 3 none (some none)
        = .error ()
    ∧ buildTreeRun true false [] (fun _ => false) [⟨['a'], ['1'], 1, .prod⟩]
        (fun _ => []) 3 (some ['a']) none = .error () := by
  refine ⟨rfl, ?_, rfl, rfl, rfl⟩
  show getPackagesFromNodeModules _ _ = _
  simp only [getPackagesFromNodeModules, detectPackageManager]
  norm_num
  simp [entsFuel, entFuel, scanThrowsEnts, scanThrowsEnt]

/-- C2 amended: the run terminates abnormally exactly at these sites: the
installed-package root missing (exit); a detected pnpm layout whose .pnpm
store is missing (exit) or unreadable (unwrapped readdirSync, index.ts line
255); an unreadable node_modules or an unreadable directory hit by one of
the unwrapped readdirSync calls of the flat walk (lines 301, 310); the
unwrapped JSON.parse of the project manifest in buildTree's
no-start-package branch (line 526); and, during a start-package tree build
in pnpm mode, an unreadable .pnpm store at the first findPkgPath call (line
465), which happens iff the start name resolves in the package map.  All
wrapped per-entry operations (malformed store entry names, missing or
unparseable package manifests, unreadable directories reached only by the
wrapped getDirSize) never terminate a run: discovery returns ok whenever
none of the fatal conditions holds, and buildTree returns ok for a missing
or parseable project manifest and for start-package builds that do not hit
the unreadable-store throw. -/
theorem c2_termination_amended :
    (∀ (fs : ProjectFS) (deps : ProjectDeps), fs.nmExists = false →
        getPackagesFromNodeModules fs deps = .error ())
    ∧ (∀ (fs : ProjectFS) (deps : ProjectDeps), fs.nmExists = true →
        detectPackageManager fs = .pnpm →
        (fs.hasDotPnpm = false ∨ fs.dotPnpmReadable = false) →
        getPackagesFromNodeModules fs deps = .error ())
    ∧ (∀ (fs : ProjectFS) (deps : ProjectDeps), fs.nmExists = true →
        detectPackageManager fs ≠ .pnpm →
        (fs.nmReadable = false
          ∨ scanThrowsEnts (entsFuel fs.flatEntries + 1) fs.flatEntries 0 = true) →
        getPackagesFromNodeModules fs deps = .error ())
    ∧ (∀ (fs : ProjectFS) (deps : ProjectDeps), fs.nmExists = true →
        (detectPackageManager fs = .pnpm →
          fs.hasDotPnpm = true ∧ fs.dotPnpmReadable = true) →
        (detectPackageManager fs ≠ .pnpm →
          fs.nmReadable = true
          ∧ scanThrowsEnts (entsFuel fs.flatEntries + 1) fs.flatEntries 0 = false) →
        ∃ l, getPackagesFromNodeModules fs deps = .ok l)
    ∧ (∀ (storeReadable : Bool) (storeEntries : List JStr) (flatHas : JStr → Bool)
          (packages : List PackageInfo) (depsOf : JStr → List JStr) (maxDepth : Nat)
          (name : JStr) (mf : Option (Option (List JStr))),
        buildTreeRun true storeReadable storeEntries flatHas packages depsOf maxDepth
            (some name) mf = .error ()
          ↔ storeReadable = false ∧ (packageMapGet packages name).isSome = true)
    ∧ (∀ (isPnpm storeReadable : Bool) (storeEntries : List JStr) (flatHas : JStr → Bool)
          (packages : List PackageInfo) (depsOf : JStr → List JStr) (maxDepth : Nat),
        buildTreeRun isPnpm storeReadable storeEntries flatHas packages depsOf maxDepth
            none (some none) = .error ()
        ∧ buildTreeRun isPnpm storeReadable storeEntries flatHas packages depsOf maxDepth
            none none = .ok []
        ∧ ∀ dd, (isPnpm = true → storeReadable = true) →
            ∃ ts, buildTreeRun isPnpm storeReadable storeEntries flatHas packages depsOf
              maxDepth none (some (some dd)) = .ok ts) := by
  refine ⟨?_, ?_, ?_, ?_, ?_, ?_⟩
  · intro fs deps h
    unfold getPackagesFromNodeModules
    rw [if_pos h]
  · intro fs deps h1 hdet hcase
    unfold getPackagesFromNodeModules
    rw [if_neg (by rw [h1]; simp)]
    simp only [hdet]
    by_cases hdp : fs.hasDotPnpm = false
    · rw [if_pos hdp]
    · rw [if_neg hdp]
      rcases hcase with hc | hc
      · exact absurd hc hdp
      · rw [if_pos hc]
  · intro fs deps h1 hdet hcase
    unfold getPackagesFromNodeModules
    rw [if_neg (by rw [h1]; simp)]
    cases hd : detectPackageManager fs with
    | pnpm => exact absurd hd hdet
    | yarn =>
      simp only []
      by_cases hr : fs.nmReadable = false
      · rw [if_pos hr]
      · rw [if_neg hr]
        rcases hcase with hc | hc
        · exact absurd hc hr
        · rw [if_pos hc]
    | npm =>
      simp only []
      by_cases hr : fs.nmReadable = false
      · rw [if_pos hr]
      · rw [if_neg hr]
        rcases hcase with hc | hc
        · exact absurd hc hr
        · rw [if_pos hc]
  · intro fs deps h1 hp hf
    unfold getPackagesFromNodeModules
    rw [if_neg (by rw [h1]; simp)]
    cases hd : detectPackageManager fs with
    | pnpm =>
      obtain ⟨hdp, hdr⟩ := hp hd
      simp only []
      rw [if_neg (by rw [hdp]; simp), if_neg (by rw [hdr]; simp)]
      exact ⟨_, rfl⟩
    | yarn =>
      obtain ⟨hr, hth⟩ := hf (by rw [hd]; simp)
      simp only []
      rw [if_neg (by rw [hr]; simp), if_neg (by rw [hth]; simp)]
      exact ⟨_, rfl⟩
    | npm =>
      obtain ⟨hr, hth⟩ := hf (by rw [hd]; simp)
      simp only []
      rw [if_neg (by rw [hr]; simp), if_neg (by rw [hth]; simp)]
      exact ⟨_, rfl⟩
  · intro storeReadable storeEntries flatHas packages depsOf maxDepth name mf
    constructor
    · intro h
      by_cases hcond :
          (true && !storeReadable && (packageMapGet packages name).isSome) = true
      · simpa using hcond
      · simp only [buildTreeRun] at h
        rw [if_neg hcond] at h
        simp [buildTree] at h
    · rintro ⟨h1, h2⟩
      have hc : (true && !storeReadable && (packageMapGet packages name).isSome) = true := by
        simp [h1, h2]
      simp only [buildTreeRun, hc, if_true]
  · intro isPnpm storeReadable storeEntries flatHas packages depsOf maxDepth
    refine ⟨rfl, rfl, ?_⟩
    intro dd hps
    have hc : (isPnpm && !storeReadable
        && dd.any fun d => (packageMapGet packages d).isSome) = false := by
      cases hp : isPnpm with
      | true => rw [hps hp]; simp
      | false => simp
    refine ⟨jsSortDesc TreeNode.size (dd.filterMap (fun d =>
      buildNode packages depsOf
        (fun nm => if isPnpm then findPkgPathPnpmOk storeEntries nm else flatHas nm)
        maxDepth d 0 [])), ?_⟩
    simp only [buildTreeRun, hc, Bool.false_eq_true, if_false]
    rfl

/-- C2 witness: the fatal missing-node_modules condition through the
theorem at a concrete filesystem. -/
theorem c2_termination_amended_witness :
    getPackagesFromNodeModules
        ⟨false, false, false, false, false, false, true, true, [], []⟩ emptyDeps
      = .error () :=
  c2_termination_amended.1
    ⟨false, false, false, false, false, false, true, true, [], []⟩ emptyDeps rfl
